import Mathlib

/- Verification development for the conversations pipeline: a shallow embedding
   of `extract_conversations.py` and `tag_conversations.py`, followed by theorems
   about the conversation filter, the filename sanitizer, the tag scanner, the
   content-integrity check and the per-file tagging driver.

   Strings from the Python code are modelled as `List Char`; `str.strip()` is
   modelled over the ASCII whitespace characters recognised by `Char.isWhitespace`
   (space, tab, CR, LF), which agrees with Python on all inputs appearing here. -/

/- ### The tag regex `\[\[([^\]]+)\]\]`

   `scanRun l` models matching `([^\]]+)\]\]` against a prefix of `l`:
   a maximal nonempty run of non-`]` characters must be followed by `]]`.
   Because `[^\]]+` can never step over a `]`, backtracking cannot rescue a
   failed attempt, so the first `]` after the run decides the match.
   On success it returns the captured run and the remainder of the input. -/
def scanRun : List Char → Option (List Char × List Char)
  | c1 :: c2 :: rest =>
    if c1 = ']' then
      if c2 = ']' then some ([], rest) else none
    else
      (scanRun (c2 :: rest)).map (fun p => (c1 :: p.1, p.2))
  | _ => none

/- `matchTag l` models matching `([^\]]+)\]\]` at the start of `l` (the text
   right after an opening `[[`): the run must be nonempty, so the first
   character must not be `]`. -/
def matchTag (l : List Char) : Option (List Char × List Char) :=
  match l with
  | [] => none
  | c :: rest => if c = ']' then none else (scanRun rest).map (fun p => (c :: p.1, p.2))

/- `tryTag l` models attempting the full pattern `\[\[([^\]]+)\]\]` at the
   current scan position: two `[` characters, then `matchTag`. -/
def tryTag (l : List Char) : Option (List Char × List Char) :=
  match l with
  | c1 :: c2 :: rest => if c1 = '[' ∧ c2 = '[' then matchTag rest else none
  | _ => none

/- Fuelled scanner: models Python `re` scanning the text left to right for
   `\[\[([^\]]+)\]\]`, advancing one character on failure and past the match on
   success (non-overlapping matches). Returns the text with every match deleted
   (as in `re.sub(pattern, '', text)`) together with the captured groups in
   order (as in `re.findall(pattern, text)`). The fuel only serves to make the
   recursion structural; `l.length` is always enough. -/
def scanTagsF : Nat → List Char → List Char × List (List Char)
  | 0, l => (l, [])
  | _ + 1, [] => ([], [])
  | fuel + 1, c :: rest =>
    match tryTag (c :: rest) with
    | some (run, rest2) => ((scanTagsF fuel rest2).1, run :: (scanTagsF fuel rest2).2)
    | none => (c :: (scanTagsF fuel rest).1, (scanTagsF fuel rest).2)

def scanTags (l : List Char) : List Char × List (List Char) :=
  scanTagsF l.length l

/- `re.findall(r'\[\[([^\]]+)\]\]', text)` -/
def findTags (l : List Char) : List (List Char) := (scanTags l).2

/- `re.sub(r'\[\[([^\]]+)\]\]', '', text)` -/
def removeTags (l : List Char) : List Char := (scanTags l).1

/- `str.strip()` with no arguments: drop whitespace from both ends. -/
def trimChars (l : List Char) : List Char :=
  ((l.dropWhile Char.isWhitespace).reverse.dropWhile Char.isWhitespace).reverse

/- ### tag_conversations.py -/

/- One validation issue reported by `ConversationTagger.validate_tags`; each
   constructor stands for one of the three f-string messages, carrying the tag
   it complains about. -/
inductive TagIssue
  | spaces (tag : List Char)
  | uppercase (tag : List Char)
  | invalidChars (tag : List Char)
deriving DecidableEq

/- `^[a-z0-9-]+$` character class. -/
def allowedChar (c : Char) : Bool :=
  (decide ('a' ≤ c) && decide (c ≤ 'z')) ||
  (decide ('0' ≤ c) && decide (c ≤ '9')) ||
  (c == '-')

/- Python `str.lower()` (ASCII-faithful). -/
def lowerStr (t : List Char) : List Char := t.map Char.toLower

/- Truthiness of `re.match(r'^[a-z0-9-]+$', t)`: a nonempty all-allowed string,
   where `$` also matches just before one trailing newline. -/
def matchAllowed (t : List Char) : Bool :=
  let u := if t.getLast? = some '\n' then t.dropLast else t
  !u.isEmpty && u.all allowedChar

/- The per-tag checks of `validate_tags`: skip the sentinel `claude`; otherwise
   report spaces, then uppercase (`tag != tag.lower()`), then failure of
   `re.match(r'^[a-z0-9-]+$', tag)`. -/
def tagIssues (t : List Char) : List TagIssue :=
  if t == "claude".data then []
  else
    (if t.contains ' ' then [TagIssue.spaces t] else []) ++
    (if !(t == lowerStr t) then [TagIssue.uppercase t] else []) ++
    (if !(matchAllowed t) then [TagIssue.invalidChars t] else [])

/- `ConversationTagger.validate_tags`: find all tags, accumulate the issues of
   each in order. -/
def validate_tags (text : List Char) : List TagIssue :=
  (findTags text).flatMap tagIssues

/- `ConversationTagger.check_already_tagged`: find all tags, drop the sentinel
   `claude`, return whether any remain together with that list. -/
def check_already_tagged (content : List Char) : Bool × List (List Char) :=
  let nonClaude := (findTags content).filter (fun t => t != "claude".data)
  (decide (0 < nonClaude.length), nonClaude)

/- `ConversationTagger.verify_content_unchanged`: strip all tags from both
   texts, trim surrounding whitespace, compare. -/
def verify_content_unchanged (originalContent updatedContent : List Char) : Bool :=
  decide (trimChars (removeTags originalContent) = trimChars (removeTags updatedContent))

/- Behaviour of one invocation of the external `claude` subprocess inside
   `process_file`: either `subprocess.TimeoutExpired` is raised, or the process
   exits with a return code; in both cases the tool may have rewritten the
   file, whose on-disk text afterwards is `newContent`. -/
inductive ToolBehavior
  | timeout (newContent : List Char)
  | run (returncode : Int) (newContent : List Char)

/- Terminal outcome of `process_file` for one file. The Python function returns
   a bool and prints a distinct message on each path; the constructors name
   those paths: `skipped` = "Already tagged with" (returns True),
   `toolFailed` = "Error processing file" on nonzero exit (returns False),
   `timedOut` = "Timeout processing file" (returns False),
   `reverted` = "Content verification failed ... Original content restored"
   (returns False), `accepted` = the final `return True` after verification
   (tag-validation issues are printed as warnings but do not change it). -/
inductive Outcome
  | skipped
  | toolFailed
  | timedOut
  | reverted
  | accepted
deriving DecidableEq

/- The boolean actually returned by `process_file` for each outcome. -/
def Outcome.success : Outcome → Bool
  | Outcome.skipped => true
  | Outcome.accepted => true
  | Outcome.toolFailed => false
  | Outcome.timedOut => false
  | Outcome.reverted => false

/- `ConversationTagger.process_file` on a file whose current text is `content`:
   skip if already tagged and not forced; otherwise invoke the tool and follow
   the code's branches. The second component is the file's on-disk text when
   the function returns (rollback rewrites it to `content`). -/
def process_file (content : List Char) (force : Bool) (tool : ToolBehavior) :
    Outcome × List Char :=
  if (check_already_tagged content).1 && !force then (Outcome.skipped, content)
  else
    match tool with
    | ToolBehavior.timeout newContent => (Outcome.timedOut, newContent)
    | ToolBehavior.run rc newContent =>
      if rc ≠ 0 then (Outcome.toolFailed, newContent)
      else if !(verify_content_unchanged content newContent) then (Outcome.reverted, content)
      else (Outcome.accepted, newContent)

/- `ConversationTagger.run`: process each file, counting `success_count` and
   `error_count` from the returned bool; the summary prints these two counts
   and the total `len(files)`. -/
def runTagging (files : List (List Char × ToolBehavior)) (force : Bool) : Nat × Nat :=
  match files with
  | [] => (0, 0)
  | f :: rest =>
    let p := runTagging rest force
    if (process_file f.1 force f.2).1.success then (p.1 + 1, p.2) else (p.1, p.2 + 1)

/- ### extract_conversations.py -/

/- One element of a message's `content` array: `some t` when the element is a
   dict carrying a `text` field with value `t`, `none` otherwise (not a dict,
   or no `text` key). -/
abbrev ContentItem := Option String

/- A chat message as consumed by `should_filter_conversation`:
   `sender` is `msg.get('sender','')`, `text` is `msg.get('text','')`,
   `content` is `some items` when `'content' in msg` and it is a list. -/
structure Msg where
  sender : String
  text : String
  content : Option (List ContentItem)

/- `len(t.strip())` when `t and t.strip()` is truthy, else no contribution. -/
def strippedLen (t : String) : Nat :=
  if t.data ≠ [] ∧ trimChars t.data ≠ [] then (trimChars t.data).length else 0

/- Character contribution of one message: its direct `text` field plus every
   content item's `text` field (both counted independently). -/
def msgChars (m : Msg) : Nat :=
  strippedLen m.text +
  (match m.content with
   | none => 0
   | some items =>
     (items.map (fun it =>
       match it with
       | none => 0
       | some t => strippedLen t)).sum)

def total_chars (msgs : List Msg) : Nat := (msgs.map msgChars).sum

def human_messages (msgs : List Msg) : Nat :=
  msgs.countP (fun m => m.sender == "human")

def assistant_messages (msgs : List Msg) : Nat :=
  msgs.countP (fun m => m.sender == "assistant")

/- `should_filter_conversation`, decision part (the `name` field is read by the
   Python function but never used in the decision). Rules in code order. -/
def should_filter_conversation (msgs : List Msg) : Bool × String :=
  if total_chars msgs = 0 then (true, "Empty conversation (0 characters)")
  else if 0 < human_messages msgs ∧ assistant_messages msgs = 0 then
    (true, "No assistant response")
  else if msgs.length = 0 then (true, "No messages")
  else (false, "")

/- `sanitize_filename` helpers. -/

/- The character class `[<>:"/\\|?*]`. -/
def badChar (c : Char) : Bool :=
  c == '<' || c == '>' || c == ':' || c == '"' || c == '/' ||
  c == '\\' || c == '|' || c == '?' || c == '*'

/- `re.sub(r'\s+', '_', s)`: collapse each maximal whitespace run to one `_`.
   The boolean records whether the previous character was inside a run. -/
def collapseWsAux : Bool → List Char → List Char
  | _, [] => []
  | prevWs, c :: rest =>
    if c.isWhitespace then
      if prevWs then collapseWsAux true rest else '_' :: collapseWsAux true rest
    else c :: collapseWsAux false rest

/- `str.strip('._')` character set. -/
def dotUnderscore (c : Char) : Bool := c == '.' || c == '_'

/- `sanitize_filename(name, max_length)`: replace problematic characters with
   `_`, collapse whitespace to `_`, strip `.` and `_` from both ends, truncate
   to `max_length` and `rstrip('_')`, and fall back to "untitled" if empty. -/
def sanitize_filename (name : List Char) (maxLength : Nat) : List Char :=
  let s1 := name.map (fun c => if badChar c then '_' else c)
  let s2 := collapseWsAux false s1
  let s3 := ((s2.dropWhile dotUnderscore).reverse.dropWhile dotUnderscore).reverse
  let s4 :=
    if maxLength < s3.length then
      ((s3.take maxLength).reverse.dropWhile (fun c => c == '_')).reverse
    else s3
  if s4.isEmpty then "untitled".data else s4

/- A character allowed to appear in a sanitized filename: neither one of the
   replaced problematic characters nor whitespace. -/
def safeChar (c : Char) : Bool := !badChar c && !c.isWhitespace

/- ### Tagged interleavings (used to reason about the integrity check)

   A text assembled from plain segments and complete `[[...]]` tags. -/
inductive Seg
  | plain (s : List Char)
  | tag (t : List Char)

def glue : List Seg → List Char
  | [] => []
  | Seg.plain s :: rest => s ++ glue rest
  | Seg.tag t :: rest => '[' :: '[' :: (t ++ ']' :: ']' :: glue rest)

def plainsOf : List Seg → List Char
  | [] => []
  | Seg.plain s :: rest => s ++ plainsOf rest
  | Seg.tag _ :: rest => plainsOf rest

def tagsOf : List Seg → List (List Char)
  | [] => []
  | Seg.plain _ :: rest => tagsOf rest
  | Seg.tag t :: rest => t :: tagsOf rest

/- Well-formed part: a plain segment free of `[`, or a tag whose content is
   nonempty and free of `]` (so that it reads back as exactly one token). -/
def segOK : Seg → Prop
  | Seg.plain s => '[' ∉ s
  | Seg.tag t => t ≠ [] ∧ ']' ∉ t

instance : DecidablePred segOK := fun p =>
  match p with
  | Seg.plain s => inferInstanceAs (Decidable ('[' ∉ s))
  | Seg.tag t => inferInstanceAs (Decidable (t ≠ [] ∧ ']' ∉ t))

/- A text contains a dangling opening `[[`: some occurrence of `[[` is never
   followed by a `]` later in the text. Appending text to such a body can
   create a new `[[...]]` match spanning the junction. -/
def danglingOpen : List Char → Bool
  | [] => false
  | c :: rest =>
    (if c = '[' ∧ rest.head? = some '[' then !(rest.tail.contains ']') else false) ||
    danglingOpen rest

/- ### Structure of successful regex matches -/

theorem scanRun_eq_some : ∀ {l r rest : List Char}, scanRun l = some (r, rest) →
    l = r ++ ']' :: ']' :: rest ∧ ']' ∉ r := by
  intro l
  induction l with
  | nil => intro r rest h; simp [scanRun] at h
  | cons c1 cs ih =>
    intro r rest h
    cases cs with
    | nil => simp [scanRun] at h
    | cons c2 rest2 =>
      simp only [scanRun] at h
      by_cases h1 : c1 = ']'
      · rw [if_pos h1] at h
        by_cases h2 : c2 = ']'
        · rw [if_pos h2] at h
          simp only [Option.some.injEq, Prod.mk.injEq] at h
          obtain ⟨rfl, rfl⟩ := h
          subst h1; subst h2
          simp
        · rw [if_neg h2] at h; exact absurd h (by simp)
      · rw [if_neg h1] at h
        cases hs : scanRun (c2 :: rest2) with
        | none => rw [hs] at h; simp at h
        | some p =>
          rw [hs] at h
          obtain ⟨a, b⟩ := p
          simp only [Option.map_some', Option.some.injEq, Prod.mk.injEq] at h
          obtain ⟨rfl, rfl⟩ := h
          obtain ⟨hl, hm⟩ := ih hs
          constructor
          · rw [hl]; rfl
          · simp only [List.mem_cons, not_or]
            exact ⟨fun hc => h1 hc.symm, hm⟩

theorem matchTag_eq_some {l run rest : List Char} (h : matchTag l = some (run, rest)) :
    l = run ++ ']' :: ']' :: rest ∧ ']' ∉ run ∧ run ≠ [] := by
  cases l with
  | nil => simp [matchTag] at h
  | cons c cs =>
    simp only [matchTag] at h
    by_cases h1 : c = ']'
    · rw [if_pos h1] at h; simp at h
    · rw [if_neg h1] at h
      cases hs : scanRun cs with
      | none => rw [hs] at h; simp at h
      | some p =>
        rw [hs] at h
        obtain ⟨a, b⟩ := p
        simp only [Option.map_some', Option.some.injEq, Prod.mk.injEq] at h
        obtain ⟨rfl, rfl⟩ := h
        obtain ⟨hl, hm⟩ := scanRun_eq_some hs
        refine ⟨by rw [hl]; rfl, ?_, by simp⟩
        simp only [List.mem_cons, not_or]
        exact ⟨fun hc => h1 hc.symm, hm⟩

theorem tryTag_eq_some {l run rest : List Char} (h : tryTag l = some (run, rest)) :
    l = '[' :: '[' :: (run ++ ']' :: ']' :: rest) ∧ ']' ∉ run ∧ run ≠ [] := by
  cases l with
  | nil => simp [tryTag] at h
  | cons c1 cs =>
    cases cs with
    | nil => simp [tryTag] at h
    | cons c2 rest2 =>
      simp only [tryTag] at h
      by_cases hc : c1 = '[' ∧ c2 = '['
      · rw [if_pos hc] at h
        obtain ⟨hm, hr, hn⟩ := matchTag_eq_some h
        exact ⟨by rw [hc.1, hc.2, hm], hr, hn⟩
      · rw [if_neg hc] at h; simp at h

theorem tryTag_length {l run rest : List Char} (h : tryTag l = some (run, rest)) :
    rest.length + 4 ≤ l.length := by
  obtain ⟨hl, -, -⟩ := tryTag_eq_some h
  rw [hl]
  simp only [List.length_cons, List.length_append, List.length_cons]
  omega

theorem tryTag_none_of_head {c : Char} (rest : List Char) (hc : c ≠ '[') :
    tryTag (c :: rest) = none := by
  cases rest with
  | nil => rfl
  | cons c2 r => simp [tryTag, hc]

/- ### Step equations for the scanner -/

theorem scanTagsF_congr : ∀ f1 f2 l, l.length ≤ f1 → l.length ≤ f2 →
    scanTagsF f1 l = scanTagsF f2 l := by
  intro f1
  induction f1 with
  | zero =>
    intro f2 l h1 _
    have hl : l = [] := by
      cases l with
      | nil => rfl
      | cons c r => simp at h1
    subst hl
    cases f2 <;> simp [scanTagsF]
  | succ f1 ih =>
    intro f2 l h1 h2
    cases l with
    | nil => cases f2 <;> simp [scanTagsF]
    | cons c rest =>
      cases f2 with
      | zero => simp at h2
      | succ f2 =>
        simp only [scanTagsF]
        cases h : tryTag (c :: rest) with
        | none =>
          have hr : rest.length ≤ f1 := by simp at h1; omega
          have hr2 : rest.length ≤ f2 := by simp at h2; omega
          dsimp only
          rw [ih f2 rest hr hr2]
        | some p =>
          obtain ⟨run, rest2⟩ := p
          have hlen := tryTag_length h
          simp only [List.length_cons] at hlen h1 h2
          dsimp only
          rw [ih f2 rest2 (by omega) (by omega)]

theorem scanTags_nil : scanTags [] = ([], []) := rfl

theorem scanTags_cons_none {c : Char} {rest : List Char} (h : tryTag (c :: rest) = none) :
    scanTags (c :: rest) = (c :: (scanTags rest).1, (scanTags rest).2) := by
  unfold scanTags
  simp only [List.length_cons, scanTagsF, h]

theorem scanTags_cons_some {c : Char} {rest run rest2 : List Char}
    (h : tryTag (c :: rest) = some (run, rest2)) :
    scanTags (c :: rest) = ((scanTags rest2).1, run :: (scanTags rest2).2) := by
  unfold scanTags
  simp only [List.length_cons, scanTagsF, h]
  have hlen := tryTag_length h
  simp only [List.length_cons] at hlen
  rw [scanTagsF_congr rest.length rest2.length rest2 (by omega) (le_refl _)]

/- When the scanner finds no tags it leaves the text untouched. -/
theorem removeTags_of_no_tags : ∀ {l : List Char}, findTags l = [] → removeTags l = l := by
  intro l
  induction l with
  | nil => intro _; rfl
  | cons c rest ih =>
    intro h
    cases ht : tryTag (c :: rest) with
    | some p =>
      obtain ⟨run, rest2⟩ := p
      unfold findTags at h
      rw [scanTags_cons_some ht] at h
      simp at h
    | none =>
      unfold findTags at h
      rw [scanTags_cons_none ht] at h
      unfold removeTags
      rw [scanTags_cons_none ht]
      simp only [List.cons.injEq, true_and]
      exact ih h

/- ### Appending text across a newline boundary

   `scanRun` and `matchTag` cannot span into appended text once a `]` has been
   seen, because `[^\]]+` cannot step over a `]`. -/

theorem scanRun_append_of_contains : ∀ (l : List Char), ∀ s : List Char,
    l.contains ']' = true →
    scanRun (l ++ '\n' :: s) = (scanRun l).map (fun p => (p.1, p.2 ++ '\n' :: s)) := by
  intro l
  induction l with
  | nil => intro s h; simp at h
  | cons c1 cs ih =>
    intro s h
    cases cs with
    | nil =>
      simp only [List.contains_cons, List.contains_nil, Bool.or_false, beq_iff_eq] at h
      subst h
      simp [scanRun]
    | cons c2 rest =>
      by_cases h1 : c1 = ']'
      · subst h1
        simp only [List.cons_append, scanRun, if_pos rfl]
        by_cases h2 : c2 = ']'
        · subst h2; simp
        · simp [h2]
      · have htail : (c2 :: rest).contains ']' = true := by
          simp only [List.contains_cons] at h
          rcases Bool.or_eq_true_iff.mp h with h' | h'
          · exact absurd (eq_of_beq h').symm h1
          · exact h'
        simp only [List.cons_append, scanRun, if_neg h1, List.append_eq]
        simp only [List.cons_append] at ih
        rw [ih s htail]
        cases scanRun (c2 :: rest) <;> simp

theorem matchTag_append_none {l : List Char} (s : List Char)
    (hc : l.contains ']' = true) (hm : matchTag l = none) :
    matchTag (l ++ '\n' :: s) = none := by
  cases l with
  | nil => simp at hc
  | cons c rest =>
    by_cases h1 : c = ']'
    · subst h1; simp [matchTag]
    · simp only [matchTag, if_neg h1] at hm
      have hrun : scanRun rest = none := by
        cases hs : scanRun rest with
        | none => rfl
        | some p => rw [hs] at hm; simp at hm
      have hrest : rest.contains ']' = true := by
        simp only [List.contains_cons] at hc
        rcases Bool.or_eq_true_iff.mp hc with h' | h'
        · exact absurd (eq_of_beq h').symm h1
        · exact h'
      simp only [List.cons_append, matchTag, if_neg h1]
      rw [scanRun_append_of_contains rest s hrest, hrun]
      rfl

/- Scanning a text with no complete tag and no dangling `[[`, followed by a
   newline and more text, scans the two pieces independently. -/
theorem scanTags_append_sep : ∀ (l : List Char), ∀ s : List Char,
    findTags l = [] → danglingOpen l = false →
    scanTags (l ++ '\n' :: s) =
      (l ++ (scanTags ('\n' :: s)).1, (scanTags ('\n' :: s)).2) := by
  intro l
  induction l with
  | nil => intro s _ _; simp
  | cons c rest ih =>
    intro s hT hD
    have ht : tryTag (c :: rest) = none := by
      cases ht : tryTag (c :: rest) with
      | none => rfl
      | some p =>
        obtain ⟨run, rest2⟩ := p
        unfold findTags at hT
        rw [scanTags_cons_some ht] at hT
        simp at hT
    have hTrest : findTags rest = [] := by
      unfold findTags at hT ⊢
      rw [scanTags_cons_none ht] at hT
      exact hT
    have hDrest : danglingOpen rest = false := by
      rw [danglingOpen] at hD
      exact (Bool.or_eq_false_iff.mp hD).2
    have htEx : tryTag ((c :: rest) ++ '\n' :: s) = none := by
      cases rest with
      | nil =>
        simp only [List.cons_append, List.nil_append]
        cases s with
        | nil => simp [tryTag]
        | cons c2 r => simp [tryTag]
      | cons c2 r =>
        simp only [List.cons_append]
        by_cases hcc : c = '[' ∧ c2 = '['
        · have hmr : matchTag r = none := by
            simp only [tryTag, if_pos hcc] at ht
            exact ht
          have hrc : r.contains ']' = true := by
            rw [danglingOpen] at hD
            have h1 := (Bool.or_eq_false_iff.mp hD).1
            rw [if_pos (by exact ⟨hcc.1, by simp [hcc.2]⟩)] at h1
            simpa using h1
          simp only [tryTag, if_pos hcc]
          exact matchTag_append_none s hrc hmr
        · simp only [tryTag, if_neg hcc]
    rw [List.cons_append] at htEx ⊢
    rw [scanTags_cons_none htEx, ih s hTrest hDrest]
    simp

/- Trimming ignores a trailing newline. -/
theorem trimChars_append_newline (l : List Char) :
    trimChars (l ++ ['\n']) = trimChars l := by
  unfold trimChars
  rw [List.dropWhile_append]
  by_cases h : (l.dropWhile Char.isWhitespace).isEmpty
  · rw [if_pos h]
    have h2 : l.dropWhile Char.isWhitespace = [] := by
      cases hc : l.dropWhile Char.isWhitespace with
      | nil => rfl
      | cons a b => rw [hc] at h; simp at h
    rw [h2]
    simp [List.dropWhile]
  · rw [if_neg h]
    rw [List.reverse_append]
    simp only [List.reverse_cons, List.reverse_nil, List.nil_append, List.singleton_append]
    rw [List.dropWhile_cons_of_pos (by decide)]

/- ### Scanning interleavings of plain text and complete tags -/

theorem scanRun_of_clean : ∀ (t : List Char) (r : List Char), ']' ∉ t →
    scanRun (t ++ ']' :: ']' :: r) = some (t, r) := by
  intro t
  induction t with
  | nil => intro r _; simp [scanRun]
  | cons c cs ih =>
    intro r hn
    simp only [List.mem_cons, not_or] at hn
    have hc : c ≠ ']' := fun h => hn.1 h.symm
    have hcs : ']' ∉ cs := hn.2
    cases cs with
    | nil =>
      simp only [List.nil_append, List.cons_append]
      simp [scanRun, hc]
    | cons c2 cs2 =>
      simp only [List.cons_append] at ih ⊢
      rw [scanRun, if_neg hc, ih r hcs]
      rfl

theorem matchTag_of_clean {t : List Char} (r : List Char) (hne : t ≠ [])
    (hn : ']' ∉ t) : matchTag (t ++ ']' :: ']' :: r) = some (t, r) := by
  cases t with
  | nil => exact absurd rfl hne
  | cons c cs =>
    simp only [List.mem_cons, not_or] at hn
    have hc : c ≠ ']' := fun h => hn.1 h.symm
    simp only [List.cons_append, matchTag, if_neg hc]
    rw [scanRun_of_clean cs r hn.2]
    rfl

/- Scanning steps over a plain segment that contains no `[`. -/
theorem scanTags_plain_step : ∀ (s : List Char) (r : List Char), '[' ∉ s →
    scanTags (s ++ r) = (s ++ (scanTags r).1, (scanTags r).2) := by
  intro s
  induction s with
  | nil => intro r _; simp
  | cons c cs ih =>
    intro r hn
    simp only [List.mem_cons, not_or] at hn
    have hc : c ≠ '[' := fun h => hn.1 h.symm
    have ht : tryTag (c :: (cs ++ r)) = none := tryTag_none_of_head _ hc
    rw [List.cons_append, scanTags_cons_none ht, ih r hn.2]
    simp

/- Scanning consumes a complete well-formed tag as one token. -/
theorem scanTags_tag_step (t : List Char) (r : List Char) (hne : t ≠ [])
    (hn : ']' ∉ t) :
    scanTags ('[' :: '[' :: (t ++ ']' :: ']' :: r)) =
      ((scanTags r).1, t :: (scanTags r).2) := by
  have htry : tryTag ('[' :: '[' :: (t ++ ']' :: ']' :: r)) = some (t, r) := by
    show (if '[' = '[' ∧ '[' = '[' then matchTag (t ++ ']' :: ']' :: r) else none) = some (t, r)
    rw [if_pos ⟨rfl, rfl⟩]
    exact matchTag_of_clean r hne hn
  rw [scanTags_cons_some htry]

/- Scanning a well-formed interleaving separates the plain text from the tag
   contents. -/
theorem scanTags_glue : ∀ (parts : List Seg), (∀ p ∈ parts, segOK p) →
    scanTags (glue parts) = (plainsOf parts, tagsOf parts) := by
  intro parts
  induction parts with
  | nil => intro _; rfl
  | cons p rest ih =>
    intro h
    have hp : segOK p := h p (List.mem_cons_self p rest)
    have hrest : ∀ q ∈ rest, segOK q := fun q hq => h q (List.mem_cons_of_mem p hq)
    cases p with
    | plain s =>
      simp only [glue, plainsOf, tagsOf]
      rw [scanTags_plain_step s (glue rest) hp, ih hrest]
    | tag t =>
      simp only [glue, plainsOf, tagsOf]
      rw [scanTags_tag_step t (glue rest) hp.1 hp.2, ih hrest]

/- ### Driver helper lemmas -/

theorem check_already_tagged_true {content t : List Char}
    (hmem : t ∈ findTags content) (hne : t ≠ "claude".data) :
    (check_already_tagged content).1 = true := by
  unfold check_already_tagged
  simp only [decide_eq_true_eq]
  apply List.length_pos.mpr
  intro hemp
  have hf : t ∈ (findTags content).filter (fun t => t != "claude".data) :=
    List.mem_filter.mpr ⟨hmem, by simpa using hne⟩
  rw [hemp] at hf
  simp at hf

theorem process_file_skip {content : List Char}
    (hck : (check_already_tagged content).1 = true) (tool : ToolBehavior) :
    process_file content false tool = (Outcome.skipped, content) := by
  unfold process_file
  rw [hck]
  rfl

/-- C1: for a file on which the tool is actually invoked (not already tagged,
or force set) and exits with status 0, if the integrity check on the re-read
text fails, `process_file` overwrites the file with the exact pre-call text
and ends in the `reverted` path (printing the restore message and returning
False), which is distinct from the `accepted` outcome. -/
theorem claim_C1_rollback_reverted (content newContent : List Char) (force : Bool)
    (hinv : (check_already_tagged content).1 = false ∨ force = true)
    (hver : verify_content_unchanged content newContent = false) :
    process_file content force (ToolBehavior.run 0 newContent) = (Outcome.reverted, content) ∧
    Outcome.reverted ≠ Outcome.accepted := by
  refine ⟨?_, by decide⟩
  have hcond : ((check_already_tagged content).1 && !force) = false := by
    rcases hinv with h | h
    · rw [h]; rfl
    · rw [h]; simp
  unfold process_file
  rw [hcond]
  simp [hver]

/-- C1 witness: a concrete untagged file "x" rewritten by the tool to "y" is
rolled back and reported reverted. -/
theorem claim_C1_witness :
    ((check_already_tagged "x".data).1 = false ∨ (false : Bool) = true) ∧
    verify_content_unchanged "x".data "y".data = false ∧
    (process_file "x".data false (ToolBehavior.run 0 "y".data) =
      (Outcome.reverted, "x".data) ∧
     Outcome.reverted ≠ Outcome.accepted) :=
  ⟨Or.inl (by decide), by decide,
   claim_C1_rollback_reverted "x".data "y".data false (Or.inl (by decide)) (by decide)⟩

/-- C2: a file whose current text contains a bracket-delimited token other than
the sentinel `claude` is skipped by a non-force run: whatever the external tool
would do, `process_file` returns the skipped outcome with the content
unchanged, and reports it as a success — so a second run never invokes the
tool. -/
theorem claim_C2_idempotent (content : List Char) (tool : ToolBehavior)
    (h : ∃ t ∈ findTags content, t ≠ "claude".data) :
    process_file content false tool = (Outcome.skipped, content) ∧
    (process_file content false tool).1.success = true := by
  obtain ⟨t, hmem, hne⟩ := h
  have hck := check_already_tagged_true hmem hne
  have hpf := process_file_skip hck tool
  exact ⟨hpf, by rw [hpf]; rfl⟩

/-- C2 witness: a file already carrying `[[note]]` is skipped unchanged even if
the tool would have emptied it. -/
theorem claim_C2_witness :
    (∃ t ∈ findTags "see [[note]] here".data, t ≠ "claude".data) ∧
    (process_file "see [[note]] here".data false (ToolBehavior.run 0 []) =
      (Outcome.skipped, "see [[note]] here".data) ∧
     (process_file "see [[note]] here".data false (ToolBehavior.run 0 [])).1.success = true) :=
  ⟨⟨"note".data, by decide, by decide⟩,
   claim_C2_idempotent "see [[note]] here".data (ToolBehavior.run 0 [])
     ⟨"note".data, by decide, by decide⟩⟩

/-- C9: any non-`claude` bracket-delimited token occurring anywhere in the
body (for example a wiki-link) makes `check_already_tagged` report the file as
already tagged, with that token in the returned list, so a non-force run skips
the file without invoking the tool. -/
theorem claim_C9_body_token_skips (content t : List Char) (tool : ToolBehavior)
    (hmem : t ∈ findTags content) (hne : t ≠ "claude".data) :
    (check_already_tagged content).1 = true ∧
    t ∈ (check_already_tagged content).2 ∧
    process_file content false tool = (Outcome.skipped, content) := by
  refine ⟨check_already_tagged_true hmem hne, ?_, ?_⟩
  · unfold check_already_tagged
    exact List.mem_filter.mpr ⟨hmem, by simpa using hne⟩
  · exact process_file_skip (check_already_tagged_true hmem hne) tool

/-- C9 witness: a body containing the wiki-link `[[note]]` (never produced by a
tagging pass) is treated as already tagged and skipped. -/
theorem claim_C9_witness :
    ("note".data ∈ findTags "x [[note]] y".data ∧ "note".data ≠ "claude".data) ∧
    ((check_already_tagged "x [[note]] y".data).1 = true ∧
     "note".data ∈ (check_already_tagged "x [[note]] y".data).2 ∧
     process_file "x [[note]] y".data false (ToolBehavior.timeout []) =
       (Outcome.skipped, "x [[note]] y".data)) :=
  ⟨⟨by decide, by decide⟩,
   claim_C9_body_token_skips "x [[note]] y".data "note".data (ToolBehavior.timeout [])
     (by decide) (by decide)⟩

/-- C6 counterexample: the body "a[[x" contains no bracket-delimited `[[...]]`
substring, yet appending a newline and one tag line makes the dangling `[[x`
merge with the appended tag into one `[[...]]` match, so the integrity check
returns false, refuting the claim as stated. -/
theorem claim_C6_counterexample :
    findTags "a[[x".data = [] ∧
    verify_content_unchanged "a[[x".data ("a[[x".data ++ "\n[[tag]]".data) = false := by
  decide

/-- C6 (amended): for a body that contains no bracket-delimited `[[...]]`
substring and also no unclosed `[[` (every occurrence of `[[` is followed by a
later `]`), appending a newline and one tag line passes the integrity check. -/
theorem claim_C6_unchanged_append (body : List Char)
    (hNoTags : findTags body = [])
    (hNoDangling : danglingOpen body = false) :
    verify_content_unchanged body (body ++ "\n[[tag]]".data) = true := by
  have hdata : ("\n[[tag]]".data : List Char) = '\n' :: "[[tag]]".data := rfl
  have hsep := scanTags_append_sep body "[[tag]]".data hNoTags hNoDangling
  have hone : scanTags ('\n' :: "[[tag]]".data) = (['\n'], ["tag".data]) := by decide
  unfold verify_content_unchanged removeTags
  rw [hdata, hsep, hone]
  have hbody : (scanTags body).1 = body := removeTags_of_no_tags hNoTags
  rw [hbody]
  show decide (trimChars body = trimChars (body ++ ['\n'])) = true
  rw [trimChars_append_newline]
  simp

/-- C6 witness: a plain body round-trips through tag appending. -/
theorem claim_C6_witness :
    findTags "hello".data = [] ∧
    danglingOpen "hello".data = false ∧
    verify_content_unchanged "hello".data ("hello".data ++ "\n[[tag]]".data) = true :=
  ⟨by decide, by decide, claim_C6_unchanged_append "hello".data (by decide) (by decide)⟩

/-- C7 counterexample: inserting the bracket-delimited token `[[t]]` in the
middle of the text "a[[bc]]d" (between "a[[b" and "c]]d") changes the
tag-stripped text, the integrity check returns false, and the driver reverts
instead of accepting — refuting the claim that insertion at any position
passes. -/
theorem claim_C7_counterexample :
    "a[[b[[t]]c]]d".data = "a[[b".data ++ "[[t]]".data ++ "c]]d".data ∧
    "a[[bc]]d".data = "a[[b".data ++ "c]]d".data ∧
    verify_content_unchanged "a[[bc]]d".data "a[[b[[t]]c]]d".data = false ∧
    process_file "a[[bc]]d".data true (ToolBehavior.run 0 "a[[b[[t]]c]]d".data) =
      (Outcome.reverted, "a[[bc]]d".data) := by
  decide

/-- C7 (amended): the integrity check accepts exactly the tag-insertion and
tag-deletion rewrites that do not disturb the surrounding text: whenever the
before- and after-texts are interleavings of the same plain text (plain
segments containing no `[`) with complete `[[...]]` tags (contents nonempty and
free of `]`) at arbitrary positions, `verify_content_unchanged` returns true
and a forced run whose tool produces the after-text ends accepted with no
rollback. Deleting the sentinel `[[claude]]`, deleting every tag, or inserting
a tag between such plain segments are all instances. -/
theorem claim_C7_tag_rewrites_accepted (P Q : List Seg)
    (hP : ∀ p ∈ P, segOK p) (hQ : ∀ p ∈ Q, segOK p)
    (hplains : plainsOf P = plainsOf Q) :
    verify_content_unchanged (glue P) (glue Q) = true ∧
    process_file (glue P) true (ToolBehavior.run 0 (glue Q)) =
      (Outcome.accepted, glue Q) := by
  have hv : verify_content_unchanged (glue P) (glue Q) = true := by
    unfold verify_content_unchanged removeTags
    rw [scanTags_glue P hP, scanTags_glue Q hQ]
    simp [hplains]
  refine ⟨hv, ?_⟩
  unfold process_file
  simp [hv]

/-- C7 witness: deleting the sentinel `[[claude]]` tag from "body\n[[claude]]"
passes the integrity check and is accepted. -/
theorem claim_C7_witness :
    verify_content_unchanged (glue [Seg.plain "body\n".data, Seg.tag "claude".data])
      (glue [Seg.plain "body\n".data]) = true ∧
    process_file (glue [Seg.plain "body\n".data, Seg.tag "claude".data]) true
      (ToolBehavior.run 0 (glue [Seg.plain "body\n".data])) =
      (Outcome.accepted, glue [Seg.plain "body\n".data]) :=
  claim_C7_tag_rewrites_accepted [Seg.plain "body\n".data, Seg.tag "claude".data]
    [Seg.plain "body\n".data] (by decide) (by decide) (by decide)

/-- C3 counterexample: a conversation with one human message whose text is
empty has one human message, zero assistant messages and total_chars = 0; the
empty-conversation rule fires first, so the reason is "Empty conversation
(0 characters)", not "No assistant response", refuting the claim at
total_chars == 0. -/
theorem claim_C3_counterexample :
    human_messages [⟨"human", "", none⟩] = 1 ∧
    assistant_messages [⟨"human", "", none⟩] = 0 ∧
    total_chars [⟨"human", "", none⟩] = 0 ∧
    should_filter_conversation [⟨"human", "", none⟩] =
      (true, "Empty conversation (0 characters)") ∧
    (should_filter_conversation [⟨"human", "", none⟩]).2 ≠ "No assistant response" := by
  decide

/-- C3 (amended): for every conversation with at least one human message, no
assistant message and total_chars ≠ 0, `should_filter_conversation` returns
filtered with reason "No assistant response"; when total_chars = 0 the
empty-conversation rule fires first instead. -/
theorem claim_C3_no_assistant (msgs : List Msg)
    (hh : 0 < human_messages msgs) (ha : assistant_messages msgs = 0)
    (ht : total_chars msgs ≠ 0) :
    should_filter_conversation msgs = (true, "No assistant response") := by
  unfold should_filter_conversation
  rw [if_neg ht, if_pos ⟨hh, ha⟩]

/-- C3 witness: a human-only conversation with nonempty text is filtered as
lacking an assistant response. -/
theorem claim_C3_witness :
    0 < human_messages [⟨"human", "Hi", none⟩] ∧
    assistant_messages [⟨"human", "Hi", none⟩] = 0 ∧
    total_chars [⟨"human", "Hi", none⟩] ≠ 0 ∧
    should_filter_conversation [⟨"human", "Hi", none⟩] = (true, "No assistant response") :=
  ⟨by decide, by decide, by decide,
   claim_C3_no_assistant [⟨"human", "Hi", none⟩] (by decide) (by decide) (by decide)⟩

/-- C10: `should_filter_conversation` never returns the reason "No messages":
an empty message list forces total_chars = 0, so the first rule fires before
the message-count rule, making that branch unreachable. -/
theorem claim_C10_no_messages_unreachable (msgs : List Msg) :
    ((should_filter_conversation msgs).2 == "No messages") = false := by
  unfold should_filter_conversation
  by_cases h1 : total_chars msgs = 0
  · rw [if_pos h1]; decide
  · rw [if_neg h1]
    by_cases h2 : 0 < human_messages msgs ∧ assistant_messages msgs = 0
    · rw [if_pos h2]; decide
    · rw [if_neg h2]
      have h3 : ¬ msgs.length = 0 := by
        intro hl
        have hnil : msgs = [] := List.length_eq_zero.mp hl
        subst hnil
        exact h1 rfl
      rw [if_neg h3]
      decide

/-- C4 counterexample: on a text whose tags are exactly Python, go-lang! and
claude, the validator reports three issues, not two: Python fails both the
uppercase check and the charset check (whose class admits only lowercase
letters, digits and hyphens), and go-lang! fails the charset check. -/
theorem claim_C4_counterexample :
    findTags "[[Python]] [[go-lang!]] [[claude]]".data =
      ["Python".data, "go-lang!".data, "claude".data] ∧
    validate_tags "[[Python]] [[go-lang!]] [[claude]]".data =
      [TagIssue.uppercase "Python".data, TagIssue.invalidChars "Python".data,
       TagIssue.invalidChars "go-lang!".data] ∧
    (validate_tags "[[Python]] [[go-lang!]] [[claude]]".data).length ≠ 2 := by
  decide

/-- C4 (amended): on any text whose bracket-delimited tokens are exactly
Python, go-lang! and claude, the validator returns exactly three issues — an
uppercase issue and an invalid-character issue for Python, and an
invalid-character issue for go-lang! — and reports zero issues for claude. -/
theorem claim_C4_three_issues (text : List Char)
    (h : findTags text = ["Python".data, "go-lang!".data, "claude".data]) :
    validate_tags text =
      [TagIssue.uppercase "Python".data, TagIssue.invalidChars "Python".data,
       TagIssue.invalidChars "go-lang!".data] ∧
    tagIssues "claude".data = [] := by
  refine ⟨?_, by decide⟩
  unfold validate_tags
  rw [h]
  decide

/-- C4 witness: the concrete scenario text. -/
theorem claim_C4_witness :
    findTags "[[Python]]x[[go-lang!]]x[[claude]]".data =
      ["Python".data, "go-lang!".data, "claude".data] ∧
    (validate_tags "[[Python]]x[[go-lang!]]x[[claude]]".data =
      [TagIssue.uppercase "Python".data, TagIssue.invalidChars "Python".data,
       TagIssue.invalidChars "go-lang!".data] ∧
     tagIssues "claude".data = []) :=
  ⟨by decide, claim_C4_three_issues "[[Python]]x[[go-lang!]]x[[claude]]".data (by decide)⟩

/-- C5 counterexample: the aggregate summary has only two counts (successfully
processed and errors); a run over one file that gets reverted and a run over
one file whose tool invocation fails produce identical summaries even though
the per-file outcomes differ, so the report does not give four mutually
distinguishable counts. -/
theorem claim_C5_counterexample :
    (process_file "x".data false (ToolBehavior.run 0 "y".data)).1 = Outcome.reverted ∧
    (process_file "x".data false (ToolBehavior.run 1 "x".data)).1 = Outcome.toolFailed ∧
    Outcome.reverted ≠ Outcome.toolFailed ∧
    runTagging [("x".data, ToolBehavior.run 0 "y".data)] false =
      runTagging [("x".data, ToolBehavior.run 1 "x".data)] false := by
  decide

/-- C5 (amended): the final report of a tagging run gives two counts —
successfully processed (accepted or skipped-already-tagged) and errors
(reverted, nonzero exit, or timeout) — whose sum always equals the total
number of files considered; reverted and failed files share the error count
and are distinguished only by per-file log messages. -/
theorem claim_C5_two_counts_sum (files : List (List Char × ToolBehavior)) (force : Bool) :
    (runTagging files force).1 + (runTagging files force).2 = files.length := by
  induction files with
  | nil => rfl
  | cons f rest ih =>
    simp only [runTagging, List.length_cons]
    by_cases h : (process_file f.1 force f.2).1.success = true
    · rw [if_pos h]; dsimp only; omega
    · rw [if_neg h]; dsimp only; omega

/- ### Sanitizer lemmas -/

theorem mem_collapseWsAux : ∀ (l : List Char) (b : Bool) (c : Char),
    c ∈ collapseWsAux b l → c.isWhitespace = false ∧ (c = '_' ∨ c ∈ l) := by
  intro l
  induction l with
  | nil => intro b c h; simp [collapseWsAux] at h
  | cons a rest ih =>
    intro b c h
    by_cases ha : a.isWhitespace
    · by_cases hb : b = true
      · simp only [collapseWsAux] at h
        rw [if_pos ha, if_pos hb] at h
        obtain ⟨h1, h2⟩ := ih true c h
        exact ⟨h1, h2.imp id (List.mem_cons_of_mem a)⟩
      · simp only [collapseWsAux] at h
        rw [if_pos ha, if_neg hb] at h
        rcases List.mem_cons.mp h with rfl | h2
        · exact ⟨by decide, Or.inl rfl⟩
        · obtain ⟨h1, h3⟩ := ih true c h2
          exact ⟨h1, h3.imp id (List.mem_cons_of_mem a)⟩
    · simp only [collapseWsAux] at h
      rw [if_neg ha] at h
      rcases List.mem_cons.mp h with rfl | h2
      · exact ⟨by simpa using ha, Or.inr (List.mem_cons_self c rest)⟩
      · obtain ⟨h1, h3⟩ := ih false c h2
        exact ⟨h1, h3.imp id (List.mem_cons_of_mem a)⟩

theorem safe_in_collapsed (name : List Char) (c : Char)
    (hc : c ∈ collapseWsAux false (name.map (fun a => if badChar a then '_' else a))) :
    safeChar c = true := by
  obtain ⟨hws, hor⟩ := mem_collapseWsAux _ false c hc
  unfold safeChar
  rcases hor with rfl | hmem
  · decide
  · obtain ⟨a, _, hfa⟩ := List.mem_map.mp hmem
    by_cases hb : badChar a = true
    · rw [if_pos hb] at hfa
      subst hfa
      decide
    · rw [if_neg hb] at hfa
      subst hfa
      have hb2 : badChar a = false := by simpa using hb
      rw [hb2, hws]
      rfl

theorem mem_of_rstrip {l : List Char} {p : Char → Bool} {c : Char}
    (h : c ∈ (l.reverse.dropWhile p).reverse) : c ∈ l := by
  rw [List.mem_reverse] at h
  have h1 : List.Sublist (l.reverse.dropWhile p) l.reverse := List.dropWhile_sublist p
  have h2 := List.Sublist.mem h h1
  rwa [List.mem_reverse] at h2

theorem mem_of_stripBoth {l : List Char} {p : Char → Bool} {c : Char}
    (h : c ∈ ((l.dropWhile p).reverse.dropWhile p).reverse) : c ∈ l := by
  have h1 : List.Sublist (l.dropWhile p) l := List.dropWhile_sublist p
  exact List.Sublist.mem (mem_of_rstrip h) h1

theorem mem_of_take {l : List Char} {n : Nat} {c : Char} (h : c ∈ l.take n) : c ∈ l :=
  List.Sublist.mem h (List.take_sublist n l)

theorem length_rstrip_le (l : List Char) (p : Char → Bool) :
    ((l.reverse.dropWhile p).reverse).length ≤ l.length := by
  have h1 : List.Sublist (l.reverse.dropWhile p) l.reverse := List.dropWhile_sublist p
  have h2 := h1.length_le
  simp only [List.length_reverse] at h2 ⊢
  exact h2

/- The truncation step keeps characters safe and bounds the length. -/
theorem sanitize_mid_step (L3 : List Char) (hsafe : ∀ c ∈ L3, safeChar c = true) :
    (∀ c ∈ (if 50 < L3.length then
        ((L3.take 50).reverse.dropWhile (fun c => c == '_')).reverse else L3),
      safeChar c = true) ∧
    (if 50 < L3.length then
        ((L3.take 50).reverse.dropWhile (fun c => c == '_')).reverse else L3).length ≤ 50 := by
  by_cases h : 50 < L3.length
  · rw [if_pos h]
    constructor
    · intro c hc
      exact hsafe c (mem_of_take (mem_of_rstrip hc))
    · calc (((L3.take 50).reverse.dropWhile (fun c => c == '_')).reverse).length
          ≤ (L3.take 50).length := length_rstrip_le _ _
        _ ≤ 50 := by rw [List.length_take]; exact min_le_left _ _
  · rw [if_neg h]
    exact ⟨hsafe, by omega⟩

/- The fallback step makes the result nonempty while preserving the bounds. -/
theorem sanitize_last_step (X : List Char)
    (h1 : ∀ c ∈ X, safeChar c = true) (h2 : X.length ≤ 50) :
    (if X.isEmpty then "untitled".data else X).length ≤ 50 ∧
    (if X.isEmpty then "untitled".data else X).isEmpty = false ∧
    (if X.isEmpty then "untitled".data else X).all safeChar = true := by
  by_cases hE : X.isEmpty
  · rw [if_pos hE]
    refine ⟨by decide, by decide, by decide⟩
  · rw [if_neg hE]
    exact ⟨h2, by simpa using hE, List.all_eq_true.mpr h1⟩

/-- C8: for every input title, `sanitize_filename` with max_length 50 returns
a string of length at most 50 that is nonempty and contains neither any of the
replaced characters < > : " / \ | ? * nor any whitespace; and on the empty
title it returns "untitled". -/
theorem claim_C8_sanitize_safe :
    (∀ name : List Char,
      (sanitize_filename name 50).length ≤ 50 ∧
      (sanitize_filename name 50).isEmpty = false ∧
      (sanitize_filename name 50).all safeChar = true) ∧
    sanitize_filename [] 50 = "untitled".data := by
  refine ⟨fun name => ?_, by decide⟩
  have hsafe3 : ∀ c ∈ ((((collapseWsAux false
      (name.map (fun c => if badChar c then '_' else c))).dropWhile
        dotUnderscore).reverse.dropWhile dotUnderscore).reverse),
      safeChar c = true := by
    intro c hc
    exact safe_in_collapsed name c (mem_of_stripBoth hc)
  obtain ⟨hs4, hl4⟩ := sanitize_mid_step _ hsafe3
  exact sanitize_last_step _ hs4 hl4
